import Mathlib

/-
Verification development for gc/g1/g1EvacuationFailureObjsInHR.hpp: a
segmented concurrent log (class Array, with fixed-capacity segments given
by class Node) and the per-region evacuation failure tracker
(G1EvacuationFailureObjsInHR) built on it.

Embedding conventions.  The concurrent code is embedded with sequential
(linearized) semantics: each completed add performs its cursor
reservation, optional segment allocation, slot write and counter increment
as one atomic step, which is the semantics the specification's claims
about "completed" adds refer to.  All machine integers are modelled as Nat
with explicit masking/modulus where the width matters (the cursor is a
uint64, element indices uint32, elements uint32).  Undefined behaviour is
modelled by Option: an operation returns none when the source would spin
forever on a never-published segment, read past the end of the segment
table, or dereference a null node pointer inside free_node.  Uninitialized
slots of a freshly allocated segment hold none.
-/

namespace G1Evac

/-- A Node's buffer (field _oop_offsets): LENGTH element slots, allocated
uninitialized; an unwritten slot is modelled as none. -/
abbrev Node (α : Type) : Type := List (Option α)

/-- Node::create_node / Node::Node: allocate a buffer of LEN uninitialized
slots. -/
def create_node (α : Type) (LEN : Nat) : Node α := List.replicate LEN none

/-- State of class Array: fields _max_nodes_length, _nodes (the segment
pointer table, entries null or a published segment), _cur_pos (the packed
64-bit cursor) and _elements_num (the element counter). -/
structure Array (α : Type) where
  max_nodes_length : Nat
  nodes : List (Option (Node α))
  cur_pos : Nat
  elements_num : Nat
deriving DecidableEq

/-- Constant TMP = 1l << 32. -/
def TMP : Nat := 1 <<< 32

/-- Constant LOW_MASK = TMP - 1. -/
def LOW_MASK : Nat := TMP - 1

/-- Constant HIGH_MASK = LOW_MASK << 32. -/
def HIGH_MASK : Nat := LOW_MASK <<< 32

namespace Array

/-- Array::low: n & LOW_MASK. -/
def low (n : Nat) : Nat := n &&& LOW_MASK

/-- Array::high: n & HIGH_MASK. -/
def high (n : Nat) : Nat := n &&& HIGH_MASK

/-- Array::elem_index: low bits of the cursor (asserted < LENGTH in the
source; the assertion conditions appear as hypotheses of the theorems). -/
def elem_index (n : Nat) : Nat := low n

/-- Array::node_index: high bits of the cursor shifted down. -/
def node_index (n : Nat) : Nat := high n >>> 32

/-- Array::next: successor of a cursor value.  The source asserts
lo < LENGTH, LENGTH <= LOW_MASK and hi < HIGH_MASK; the uint64 addition
hi + (1l << 32) is modelled with an explicit modulus. -/
def next (LEN n : Nat) : Nat :=
  let lo := low n
  let hi := high n
  if lo + 1 = LEN then
    ((hi + (1 <<< 32)) % 2 ^ 64) ||| 0
  else
    hi ||| (lo + 1)

/-- Array::Array(max_nodes_length): the segment table starts all null, the
cursor and counter start at zero. -/
def init (α : Type) (max_nodes_length : Nat) : Array α :=
  { max_nodes_length := max_nodes_length
    nodes := List.replicate max_nodes_length none
    cur_pos := 0
    elements_num := 0 }

/-- Array::objs_num: load of _elements_num, a 32-bit uint (always below
2^32 in reachable states, since Atomic::inc wraps modulo 2^32). -/
def objs_num (s : Array α) : Nat := s.elements_num

/-- Array::add, linearized: the CAS of the first loop iteration succeeds,
the winning thread owns coordinate (node_index pos, elem_index pos) of the
old cursor value, allocates the segment when its slot index is 0, then
writes its element and increments the counter; _elements_num is a 32-bit
uint, so Atomic::inc wraps modulo 2^32.  Returns none when the spin-wait
on the segment pointer would never terminate (segment never published) or
the segment-table access is out of bounds. -/
def add (LEN : Nat) (s : Array α) (elem : α) : Option (Array α) :=
  let pos := s.cur_pos
  let next_pos := next LEN pos
  let hi := node_index pos
  let lo := elem_index pos
  let nodes1 := if lo = 0 then s.nodes.set hi (some (create_node α LEN)) else s.nodes
  match nodes1.getD hi none with
  | none => none
  | some node =>
      some { s with
              nodes := nodes1.set hi (some (node.set lo (some elem)))
              cur_pos := next_pos
              elements_num := (s.elements_num + 1) % 2 ^ 32 }

/-- A sequence of completed Array::add calls. -/
def addAll (LEN : Nat) : Array α → List α → Option (Array α)
  | s, [] => some s
  | s, e :: es =>
    match add LEN s e with
    | none => none
    | some s2 => addAll LEN s2 es

/-- Array::iterate_elements: reads the cursor once, then visits segments
0..node_index in ascending order, full segments up to LENGTH and the last
one up to elem_index.  Each visited value is the slot's content; a visit
that reads through a null segment pointer or an uninitialized slot yields
none. -/
def iterate_elements (LEN : Nat) (s : Array α) : List (Option α) :=
  let pos := s.cur_pos
  let hi := node_index pos
  let lo := elem_index pos
  (List.range (hi + 1)).flatMap fun i =>
    let limit := if i = hi then lo else LEN
    let node := s.nodes.getD i none
    (List.range limit).map fun j => node.bind fun nd => nd.getD j none

/-- Array::reset (also run by the destructor ~Array): calls
Node::free_node on every segment-table entry from 0 through
node_index(_cur_pos) inclusive with no null check, then nulls those
entries and zeroes the counter and cursor.  free_node dereferences the
node (FreeHeap(node->_oop_offsets)), so a null entry in that range is a
null-pointer dereference, modelled as none; an entry past the table is an
out-of-bounds read, also modelled as none. -/
def reset (s : Array α) : Option (Array α) :=
  let pos := s.cur_pos
  let hi := node_index pos
  if (List.range (hi + 1)).all (fun i => (s.nodes.getD i none).isSome) then
    some { s with
            nodes := (List.range (hi + 1)).foldl (fun ns i => ns.set i none) s.nodes
            cur_pos := 0
            elements_num := 0 }
  else
    none

/-- The segment-table index accessed by a completed Array::add from state
s: the source reads and possibly stores _nodes[hi] with
hi = node_index(pos) for the reserved (old) cursor value pos. -/
def add_table_index (s : Array α) : Nat := node_index s.cur_pos

/-- The segment-table indices loaded by Array::iterate_elements from
state s: the loop loads _nodes[i] for every i with 0 <= i <= node_index. -/
def iterate_table_indices (s : Array α) : List Nat :=
  List.range (node_index s.cur_pos + 1)

/-- The segment-table indices accessed by Array::reset from state s: the
loop frees and nulls _nodes[hi] for every hi with 0 <= hi <= node_index. -/
def reset_table_indices (s : Array α) : List Nat :=
  List.range (node_index s.cur_pos + 1)

end Array

/-- Constant NODE_LENGTH = 256, the segment capacity the tracker
instantiates the log with. -/
def NODE_LENGTH : Nat := 256

/-- State of class G1EvacuationFailureObjsInHR: the offset mask, region
index, region base address _bottom (an address in heap-word units) and the
owned log of 32-bit offsets (typedef Elem = uint32_t, modelled as Nat
values kept below 2^32). -/
structure G1EvacuationFailureObjsInHR where
  offset_mask : Nat
  region_idx : Nat
  bottom : Nat
  nodes_array : Array Nat
deriving DecidableEq

namespace G1EvacuationFailureObjsInHR

/-- G1EvacuationFailureObjsInHR::cast_from_offset: oop(_bottom + offset),
HeapWord-granular pointer arithmetic on the region base. -/
def cast_from_offset (t : G1EvacuationFailureObjsInHR) (offset : Nat) : Nat :=
  t.bottom + offset

/-- G1EvacuationFailureObjsInHR::cast_from_oop_addr: the word distance
pointer_delta(obj, _bottom), the assertion offset_mask >= offset (a
fail-fast abort in debug builds, modelled as the failure branch none),
then offset & offset_mask truncated to the uint32 Elem return type. -/
def cast_from_oop_addr (t : G1EvacuationFailureObjsInHR) (obj : Nat) : Option Nat :=
  let offset := obj - t.bottom
  if t.offset_mask ≥ offset then
    some ((offset &&& t.offset_mask) % 2 ^ 32)
  else
    none

/-- Modelled from the spec: the constructor body of
G1EvacuationFailureObjsInHR is in g1EvacuationFailureObjsInHR.cpp, which
is not part of this repository snapshot (only the header is).  Per spec
sections 3 and 4.2 the offset mask is the all-ones mask of the bit width w
derived from the region size, and the log starts empty with all segment
pointers null. -/
def mkTracker (region_idx bottom w max_nodes_length : Nat) :
    G1EvacuationFailureObjsInHR :=
  { offset_mask := 2 ^ w - 1
    region_idx := region_idx
    bottom := bottom
    nodes_array := Array.init Nat max_nodes_length }

/-- Modelled from the spec: the body of
G1EvacuationFailureObjsInHR::record is in the missing .cpp; per spec
section 4.2 it computes the region-relative word offset via
cast_from_oop_addr and inserts it via the underlying log's add. -/
def record (t : G1EvacuationFailureObjsInHR) (obj : Nat) :
    Option G1EvacuationFailureObjsInHR :=
  (cast_from_oop_addr t obj).bind fun e =>
    (Array.add NODE_LENGTH t.nodes_array e).map fun a => { t with nodes_array := a }

/-- A sequence of completed record calls. -/
def recordAll : G1EvacuationFailureObjsInHR → List Nat → Option G1EvacuationFailureObjsInHR
  | t, [] => some t
  | t, o :: os =>
    match record t o with
    | none => none
    | some t2 => recordAll t2 os

/-- Modelled from the spec: the body of
G1EvacuationFailureObjsInHR::iterate (and its helpers compact, sort,
iterate_internal) is in the missing .cpp; only their declarations are in
the header.  Per spec section 4.2 iterate normalizes the recorded offsets
into ascending order with no duplicate entries (the exact algorithm is
left open by spec section 9; only the sorted, duplicate-free, exactly-once
contract is required) and then visits cast_from_offset of each normalized
offset in ascending order.  The returned list is the sequence of addresses
passed to the visitor. -/
def iterate (t : G1EvacuationFailureObjsInHR) : List Nat :=
  let offsets := (Array.iterate_elements NODE_LENGTH t.nodes_array).filterMap id
  (offsets.toFinset.sort (· ≤ ·)).map (cast_from_offset t)

end G1EvacuationFailureObjsInHR

/-- Contents of segment i after the elements es have been added in order:
slot j holds the (i * LEN + j)-th element when that many elements were
added, and is still uninitialized otherwise. -/
def segContents (LEN : Nat) (es : List α) (i : Nat) : Node α :=
  (List.range LEN).map fun j => es[i * LEN + j]?

/-- The segment table after the elements es have been added in order:
entry i is published exactly when some add reserved slot (i, 0), that is
when i * LEN < es.length. -/
def mkNodes (max LEN : Nat) (es : List α) : List (Option (Node α)) :=
  (List.range max).map fun i =>
    if i * LEN < es.length then some (segContents LEN es i) else none

/-- Packing of a (segment index, slot index) pair into a 64-bit cursor. -/
def encode (h l : Nat) : Nat := h * 2 ^ 32 + l

/-- The full Array state reached from a fresh log by adding es in order
(the 32-bit element counter holds the insertion count modulo 2^32). -/
def mkState (max LEN : Nat) (es : List α) : Array α :=
  { max_nodes_length := max
    nodes := mkNodes max LEN es
    cur_pos := encode (es.length / LEN) (es.length % LEN)
    elements_num := es.length % 2 ^ 32 }

theorem TMP_eq : TMP = 2 ^ 32 := by
  simp [TMP, Nat.shiftLeft_eq]

theorem LOW_MASK_eq : LOW_MASK = 2 ^ 32 - 1 := by
  simp [LOW_MASK, TMP_eq]

theorem HIGH_MASK_eq : HIGH_MASK = (2 ^ 32 - 1) * 2 ^ 32 := by
  simp [HIGH_MASK, LOW_MASK_eq, Nat.shiftLeft_eq]

namespace Array

theorem low_eq (n : Nat) : low n = n % 2 ^ 32 := by
  rw [low, LOW_MASK_eq]
  exact Nat.and_pow_two_sub_one_eq_mod n 32

theorem high_eq (n : Nat) : high n = n / 2 ^ 32 % 2 ^ 32 * 2 ^ 32 := by
  apply Nat.eq_of_testBit_eq
  intro j
  have h1 : (2 ^ 32 - 1) * 2 ^ 32 = 2 ^ 32 * (2 ^ 32 - 1) := Nat.mul_comm _ _
  have h2 : n / 2 ^ 32 % 2 ^ 32 * 2 ^ 32 = 2 ^ 32 * (n / 2 ^ 32 % 2 ^ 32) :=
    Nat.mul_comm _ _
  have h3 : n / 2 ^ 32 = n >>> 32 := (Nat.shiftRight_eq_div_pow n 32).symm
  rw [high, HIGH_MASK_eq, h1, h2, h3]
  simp only [Nat.testBit_and, Nat.testBit_mul_pow_two, Nat.testBit_mod_two_pow,
    Nat.testBit_two_pow_sub_one, Nat.testBit_shiftRight]
  by_cases hj : 32 ≤ j
  · have hj' : 32 + (j - 32) = j := by omega
    rw [hj']
    cases hb : n.testBit j <;> simp [hj, hb]
  · simp [hj]

theorem elem_index_eq (n : Nat) : elem_index n = n % 2 ^ 32 := low_eq n

theorem node_index_eq (n : Nat) : node_index n = n / 2 ^ 32 % 2 ^ 32 := by
  rw [node_index, high_eq, Nat.shiftRight_eq_div_pow]
  exact Nat.mul_div_cancel _ (by positivity)

end Array

theorem low_encode (h l : Nat) (hl : l < 2 ^ 32) : Array.low (encode h l) = l := by
  rw [Array.low_eq, encode, Nat.mul_comm h, Nat.mul_add_mod, Nat.mod_eq_of_lt hl]

theorem elem_index_encode (h l : Nat) (hl : l < 2 ^ 32) :
    Array.elem_index (encode h l) = l := low_encode h l hl

theorem node_index_encode (h l : Nat) (hh : h < 2 ^ 32) (hl : l < 2 ^ 32) :
    Array.node_index (encode h l) = h := by
  rw [Array.node_index_eq, encode, Nat.mul_comm h, Nat.mul_add_div (by positivity),
    Nat.div_eq_of_lt hl, Nat.add_zero, Nat.mod_eq_of_lt hh]

theorem high_encode (h l : Nat) (hh : h < 2 ^ 32) (hl : l < 2 ^ 32) :
    Array.high (encode h l) = h * 2 ^ 32 := by
  rw [Array.high_eq, encode, Nat.mul_comm h, Nat.mul_add_div (by positivity),
    Nat.div_eq_of_lt hl, Nat.add_zero, Nat.mod_eq_of_lt hh, Nat.mul_comm]

theorem or_encode (h l : Nat) (hl : l < 2 ^ 32) : (h * 2 ^ 32) ||| l = encode h l := by
  rw [encode, Nat.mul_comm h, ← Nat.mul_add_lt_is_or hl h, Nat.mul_comm]

theorem next_encode (LEN h l : Nat) (hh : h + 1 < 2 ^ 32) (hl : l < LEN)
    (hLEN : LEN < 2 ^ 32) :
    Array.next LEN (encode h l) =
      if l + 1 = LEN then encode (h + 1) 0 else encode h (l + 1) := by
  have hh0 : h < 2 ^ 32 := by omega
  have hl32 : l < 2 ^ 32 := by omega
  rw [Array.next]
  simp only [low_encode h l hl32, high_encode h l hh0 hl32]
  by_cases hc : l + 1 = LEN
  · rw [if_pos hc, if_pos hc]
    have e1 : (1 : Nat) <<< 32 = 2 ^ 32 := by simp [Nat.shiftLeft_eq]
    have e2 : h * 2 ^ 32 + 2 ^ 32 = (h + 1) * 2 ^ 32 := by ring
    have e3 : (h + 1) * 2 ^ 32 < 2 ^ 64 := by
      calc (h + 1) * 2 ^ 32 < 2 ^ 32 * 2 ^ 32 :=
              (Nat.mul_lt_mul_right (by positivity)).mpr hh
        _ = 2 ^ 64 := by norm_num
    rw [e1, e2, Nat.mod_eq_of_lt e3, Nat.or_zero, encode]
    omega
  · rw [if_neg hc, if_neg hc]
    have : l + 1 < 2 ^ 32 := by omega
    exact or_encode h (l + 1) this

theorem next_cursor (LEN M : Nat) (hL : 0 < LEN) (hLEN : LEN < 2 ^ 32)
    (hM : M / LEN + 1 < 2 ^ 32) :
    Array.next LEN (encode (M / LEN) (M % LEN)) =
      encode ((M + 1) / LEN) ((M + 1) % LEN) := by
  have hmod : M % LEN < LEN := Nat.mod_lt _ hL
  have hdm : LEN * (M / LEN) + M % LEN = M := Nat.div_add_mod M LEN
  rw [next_encode LEN (M / LEN) (M % LEN) hM hmod hLEN]
  by_cases hc : M % LEN + 1 = LEN
  · rw [if_pos hc]
    have hexp : LEN * (M / LEN + 1) = LEN * (M / LEN) + LEN := by ring
    have hM1 : M + 1 = LEN * (M / LEN + 1) := by omega
    have hdiv : (M + 1) / LEN = M / LEN + 1 := by
      rw [hM1, Nat.mul_div_cancel_left _ hL]
    have hmod1 : (M + 1) % LEN = 0 := by
      rw [hM1, Nat.mul_mod_right]
    rw [hdiv, hmod1]
  · rw [if_neg hc]
    have hlt : M % LEN + 1 < LEN := by omega
    have hM1 : M + 1 = LEN * (M / LEN) + (M % LEN + 1) := by omega
    have hdiv : (M + 1) / LEN = M / LEN := by
      rw [hM1, Nat.mul_add_div hL, Nat.div_eq_of_lt hlt, Nat.add_zero]
    have hmod1 : (M + 1) % LEN = M % LEN + 1 := by
      rw [hM1, Nat.mul_add_mod, Nat.mod_eq_of_lt hlt]
    rw [hdiv, hmod1]

theorem seg_lt_of_lt_div (LEN M i j : Nat) (hi : i < M / LEN) (hj : j < LEN) :
    i * LEN + j < M := by
  have h1 : (i + 1) * LEN ≤ M / LEN * LEN := Nat.mul_le_mul_right LEN hi
  have h2 : M / LEN * LEN ≤ M := Nat.div_mul_le_self M LEN
  have h3 : (i + 1) * LEN = i * LEN + LEN := by ring
  omega

theorem lt_seg_of_div_lt (LEN M i : Nat) (hL : 0 < LEN) (hq : M / LEN < i) :
    M < i * LEN := by
  have hdm : LEN * (M / LEN) + M % LEN = M := Nat.div_add_mod M LEN
  have hmod : M % LEN < LEN := Nat.mod_lt _ hL
  have h1 : (M / LEN + 1) * LEN ≤ i * LEN := Nat.mul_le_mul_right LEN hq
  have h2 : (M / LEN + 1) * LEN = LEN * (M / LEN) + LEN := by ring
  omega

theorem le_div_of_seg_lt (LEN M i : Nat) (hL : 0 < LEN) (h : i * LEN < M) :
    i ≤ M / LEN :=
  (Nat.le_div_iff_mul_le hL).mpr (Nat.le_of_lt h)

theorem eq_div_of_seg_eq (LEN M i : Nat) (hL : 0 < LEN) (h : i * LEN = M) :
    i = M / LEN := by
  rw [← h, Nat.mul_div_cancel _ hL]

theorem segContents_length (LEN : Nat) (es : List α) (i : Nat) :
    (segContents LEN es i).length = LEN := by
  simp [segContents]

theorem mkNodes_length (max LEN : Nat) (es : List α) :
    (mkNodes max LEN es).length = max := by
  simp [mkNodes]

theorem segContents_getElem? (LEN : Nat) (es : List α) (i j : Nat) :
    (segContents LEN es i)[j]? =
      if j < LEN then some es[i * LEN + j]? else none := by
  by_cases h : j < LEN
  · simp [segContents, List.getElem?_range h, h]
  · have hlen : (List.range LEN).length ≤ j := by
      simp only [List.length_range]
      omega
    simp [segContents, List.getElem?_eq_none hlen, h]

theorem mkNodes_getElem? (max LEN : Nat) (es : List α) (i : Nat) :
    (mkNodes max LEN es)[i]? =
      if i < max then
        some (if i * LEN < es.length then some (segContents LEN es i) else none)
      else none := by
  by_cases h : i < max
  · simp [mkNodes, List.getElem?_range h, h]
  · have hlen : (List.range max).length ≤ i := by
      simp only [List.length_range]
      omega
    simp [mkNodes, List.getElem?_eq_none hlen, h]

theorem getElem?_snoc_ne (es : List α) (e : α) (idx : Nat)
    (h : idx ≠ es.length) : (es ++ [e])[idx]? = es[idx]? := by
  by_cases hlt : idx < es.length
  · exact List.getElem?_append_left hlt
  · rw [List.getElem?_eq_none (l := es) (by omega),
      List.getElem?_eq_none (by simp only [List.length_append, List.length_singleton]; omega)]

theorem getElem?_snoc_self (es : List α) (e : α) :
    (es ++ [e])[es.length]? = some e := by
  rw [List.getElem?_append_right (Nat.le_refl _)]
  simp

theorem segContents_of_ge (LEN : Nat) (es : List α) (i : Nat)
    (h : es.length ≤ i * LEN) : segContents LEN es i = create_node α LEN := by
  apply List.ext_getElem?
  intro j
  rw [segContents_getElem?, create_node, List.getElem?_replicate]
  by_cases hj : j < LEN
  · rw [if_pos hj, if_pos hj, List.getElem?_eq_none (by omega)]
  · rw [if_neg hj, if_neg hj]

theorem segContents_snoc_eq (LEN : Nat) (es : List α) (e : α) (i k : Nat)
    (hk : k < LEN) (hik : i * LEN + k = es.length) :
    (segContents LEN es i).set k (some e) = segContents LEN (es ++ [e]) i := by
  apply List.ext_getElem?
  intro j
  rw [List.getElem?_set, segContents_length, segContents_getElem?, segContents_getElem?]
  by_cases hkj : k = j
  · subst hkj
    rw [if_pos rfl, if_pos hk, if_pos hk, hik, getElem?_snoc_self]
  · rw [if_neg hkj]
    by_cases hj : j < LEN
    · rw [if_pos hj, if_pos hj, getElem?_snoc_ne]
      omega
    · rw [if_neg hj, if_neg hj]

theorem segContents_snoc_of_lt (LEN : Nat) (es : List α) (e : α) (i : Nat)
    (hfull : i < es.length / LEN) :
    segContents LEN (es ++ [e]) i = segContents LEN es i := by
  apply List.ext_getElem?
  intro j
  rw [segContents_getElem?, segContents_getElem?]
  by_cases hj : j < LEN
  · rw [if_pos hj, if_pos hj, getElem?_snoc_ne]
    have := seg_lt_of_lt_div LEN es.length i j hfull hj
    omega
  · rw [if_neg hj, if_neg hj]

theorem mkNodes_snoc (max LEN : Nat) (es : List α) (e : α)
    (hL : 0 < LEN) (hlen : es.length < max * LEN) :
    (mkNodes max LEN es).set (es.length / LEN)
        (some (segContents LEN (es ++ [e]) (es.length / LEN))) =
      mkNodes max LEN (es ++ [e]) := by
  have hqmax : es.length / LEN < max := by
    rw [Nat.div_lt_iff_lt_mul hL]
    omega
  apply List.ext_getElem?
  intro i
  rw [List.getElem?_set, mkNodes_length, mkNodes_getElem?]
  by_cases hqi : es.length / LEN = i
  · subst hqi
    rw [if_pos rfl, if_pos hqmax, mkNodes_getElem?, if_pos hqmax]
    have hseg : es.length / LEN * LEN < (es ++ [e]).length := by
      have h2 : es.length / LEN * LEN ≤ es.length := Nat.div_mul_le_self _ _
      simp only [List.length_append, List.length_singleton]
      omega
    rw [if_pos hseg]
  · rw [if_neg hqi, mkNodes_getElem?]
    by_cases hi : i < max
    · rw [if_pos hi, if_pos hi]
      have hne : i * LEN ≠ es.length := fun h =>
        hqi ((eq_div_of_seg_eq LEN es.length i hL h).symm ▸ rfl)
      by_cases hseg : i * LEN < es.length
      · have hseg' : i * LEN < (es ++ [e]).length := by
          simp only [List.length_append, List.length_singleton]
          omega
        rw [if_pos hseg, if_pos hseg']
        have hlt : i < es.length / LEN := by
          have := le_div_of_seg_lt LEN es.length i hL hseg
          omega
        rw [segContents_snoc_of_lt LEN es e i hlt]
      · have hseg' : ¬ i * LEN < (es ++ [e]).length := by
          simp only [List.length_append, List.length_singleton]
          omega
        rw [if_neg hseg, if_neg hseg']
    · rw [if_neg hi, if_neg hi]

theorem add_reduce (LEN : Nat) (s : Array α) (e : α) (node : Node α)
    (h : (if Array.elem_index s.cur_pos = 0
            then s.nodes.set (Array.node_index s.cur_pos) (some (create_node α LEN))
            else s.nodes).getD (Array.node_index s.cur_pos) none = some node) :
    Array.add LEN s e = some { s with
      nodes := (if Array.elem_index s.cur_pos = 0
                  then s.nodes.set (Array.node_index s.cur_pos) (some (create_node α LEN))
                  else s.nodes).set (Array.node_index s.cur_pos)
                (some (node.set (Array.elem_index s.cur_pos) (some e)))
      cur_pos := Array.next LEN s.cur_pos
      elements_num := (s.elements_num + 1) % 2 ^ 32 } := by
  simp only [Array.add]
  rw [h]

theorem add_mkState (max LEN : Nat) (es : List α) (e : α)
    (hL : 0 < LEN) (hLEN : LEN < 2 ^ 32) (hmax : max < 2 ^ 32)
    (hlen : es.length + 1 ≤ max * LEN) :
    Array.add LEN (mkState max LEN es) e = some (mkState max LEN (es ++ [e])) := by
  have hqmax : es.length / LEN < max := by
    rw [Nat.div_lt_iff_lt_mul hL]
    omega
  have hq32 : es.length / LEN < 2 ^ 32 := lt_trans hqmax hmax
  have hr : es.length % LEN < LEN := Nat.mod_lt _ hL
  have hr32 : es.length % LEN < 2 ^ 32 := lt_trans hr hLEN
  have hdm : LEN * (es.length / LEN) + es.length % LEN = es.length :=
    Nat.div_add_mod _ _
  have hcur : (mkState max LEN es).cur_pos =
      encode (es.length / LEN) (es.length % LEN) := rfl
  have hhi : Array.node_index (mkState max LEN es).cur_pos = es.length / LEN := by
    rw [hcur, node_index_encode _ _ hq32 hr32]
  have hlo : Array.elem_index (mkState max LEN es).cur_pos = es.length % LEN := by
    rw [hcur, elem_index_encode _ _ hr32]
  have hnodes_def : (mkState max LEN es).nodes = mkNodes max LEN es := rfl
  have hcomm : es.length / LEN * LEN = LEN * (es.length / LEN) := Nat.mul_comm _ _
  have hpos2 : Array.next LEN (encode (es.length / LEN) (es.length % LEN)) =
      encode ((es.length + 1) / LEN) ((es.length + 1) % LEN) :=
    next_cursor LEN es.length hL hLEN (by omega)
  have hsetlen : es.length / LEN < (mkNodes max LEN es).length := by
    rw [mkNodes_length]
    exact hqmax
  by_cases hc : es.length % LEN = 0
  · have hqseg : es.length / LEN * LEN = es.length := by omega
    have hnode : (if Array.elem_index (mkState max LEN es).cur_pos = 0
        then (mkState max LEN es).nodes.set (Array.node_index (mkState max LEN es).cur_pos)
              (some (create_node α LEN))
        else (mkState max LEN es).nodes).getD
          (Array.node_index (mkState max LEN es).cur_pos) none =
        some (create_node α LEN) := by
      rw [hlo, if_pos hc, hhi, hnodes_def, List.getD_eq_getElem?_getD,
        List.getElem?_set_self hsetlen]
      rfl
    rw [add_reduce LEN (mkState max LEN es) e (create_node α LEN) hnode]
    rw [hlo, if_pos hc, hhi, hnodes_def, List.set_set]
    have hcn : (create_node α LEN).set (es.length % LEN) (some e) =
        segContents LEN (es ++ [e]) (es.length / LEN) := by
      rw [hc, ← segContents_of_ge LEN es (es.length / LEN) (by omega)]
      exact segContents_snoc_eq LEN es e _ 0 hL (by omega)
    rw [hcn, mkNodes_snoc max LEN es e hL (by omega)]
    simp only [mkState, hpos2, List.length_append, List.length_singleton,
      Option.some.injEq, Array.mk.injEq]
    exact ⟨trivial, trivial, trivial, by omega⟩
  · have hqseg : es.length / LEN * LEN < es.length := by omega
    have hnode : (if Array.elem_index (mkState max LEN es).cur_pos = 0
        then (mkState max LEN es).nodes.set (Array.node_index (mkState max LEN es).cur_pos)
              (some (create_node α LEN))
        else (mkState max LEN es).nodes).getD
          (Array.node_index (mkState max LEN es).cur_pos) none =
        some (segContents LEN es (es.length / LEN)) := by
      rw [hlo, if_neg hc, hhi, hnodes_def, List.getD_eq_getElem?_getD,
        mkNodes_getElem?, if_pos hqmax, if_pos hqseg]
      rfl
    rw [add_reduce LEN (mkState max LEN es) e (segContents LEN es (es.length / LEN)) hnode]
    rw [hlo, if_neg hc, hhi, hnodes_def]
    have hcn : (segContents LEN es (es.length / LEN)).set (es.length % LEN) (some e) =
        segContents LEN (es ++ [e]) (es.length / LEN) := by
      exact segContents_snoc_eq LEN es e _ _ hr (by omega)
    rw [hcn, mkNodes_snoc max LEN es e hL (by omega)]
    simp only [mkState, hpos2, List.length_append, List.length_singleton,
      Option.some.injEq, Array.mk.injEq]
    exact ⟨trivial, trivial, trivial, by omega⟩

theorem addAll_append (LEN : Nat) (s : Array α) (es : List α) (e : α) :
    Array.addAll LEN s (es ++ [e]) =
      (Array.addAll LEN s es).bind fun t => Array.add LEN t e := by
  induction es generalizing s with
  | nil =>
    simp only [List.nil_append, Array.addAll]
    cases h : Array.add LEN s e <;> simp [Array.addAll, h]
  | cons a as ih =>
    rw [List.cons_append]
    simp only [Array.addAll]
    cases h : Array.add LEN s a with
    | none => simp
    | some s2 => simp [ih]

theorem mkState_nil (max LEN : Nat) : mkState max LEN ([] : List α) = Array.init α max := by
  have hn : mkNodes max LEN ([] : List α) = List.replicate max none := by
    apply List.ext_getElem?
    intro i
    rw [mkNodes_getElem?, List.getElem?_replicate]
    by_cases h : i < max
    · rw [if_pos h, if_pos h, if_neg (by simp)]
    · rw [if_neg h, if_neg h]
  simp only [mkState, Array.init, hn, List.length_nil]
  simp [encode]

theorem addAll_mkState (max LEN : Nat) (es : List α)
    (hL : 0 < LEN) (hLEN : LEN < 2 ^ 32) (hmax : max < 2 ^ 32) :
    es.length ≤ max * LEN →
      Array.addAll LEN (Array.init α max) es = some (mkState max LEN es) := by
  induction es using List.reverseRecOn with
  | nil =>
    intro _
    rw [mkState_nil]
    rfl
  | append_singleton as a ih =>
    intro hlen
    rw [List.length_append, List.length_singleton] at hlen
    rw [addAll_append, ih (by omega)]
    simp only [Option.some_bind]
    exact add_mkState max LEN as a hL hLEN hmax hlen

theorem flatMap_congruence {l : List γ} {f g : γ → List β}
    (h : ∀ a ∈ l, f a = g a) : l.flatMap f = l.flatMap g := by
  induction l with
  | nil => rfl
  | cons a as ih =>
    rw [List.flatMap_cons, List.flatMap_cons, h a (by simp),
      ih (fun b hb => h b (by simp [hb]))]

theorem range_flatMap_map (L : Nat) (f : Nat → β) :
    ∀ q, (List.range q).flatMap (fun i => (List.range L).map fun j => f (i * L + j)) =
      (List.range (q * L)).map f := by
  intro q
  induction q with
  | zero => simp
  | succ q ih =>
    rw [List.range_succ, List.flatMap_append, ih, List.flatMap_singleton]
    have h1 : (q + 1) * L = q * L + L := by ring
    rw [h1, List.range_add, List.map_append, List.map_map]
    rfl

theorem range_flatMap_partial (L r : Nat) (f : Nat → β) (q : Nat) :
    (List.range (q + 1)).flatMap
        (fun i => (List.range (if i = q then r else L)).map fun j => f (i * L + j)) =
      (List.range (q * L + r)).map f := by
  rw [List.range_succ, List.flatMap_append, List.flatMap_singleton, if_pos rfl]
  have h1 : (List.range q).flatMap
      (fun i => (List.range (if i = q then r else L)).map fun j => f (i * L + j)) =
      (List.range q).flatMap (fun i => (List.range L).map fun j => f (i * L + j)) := by
    apply flatMap_congruence
    intro i hi
    rw [if_neg]
    intro he
    rw [List.mem_range] at hi
    omega
  rw [h1, range_flatMap_map, List.range_add, List.map_append, List.map_map]
  rfl

theorem range_map_getElem? (es : List α) :
    (List.range es.length).map (fun k => es[k]?) = es.map some := by
  induction es with
  | nil => simp
  | cons a as ih =>
    rw [List.length_cons, List.range_succ_eq_map, List.map_cons, List.map_map,
      List.map_cons]
    congr 1
    · simp
    · rw [← ih]
      apply List.map_congr_left
      intro k hk
      simp [Function.comp]

theorem div_le_of_le_mul (LEN M max : Nat) (hL : 0 < LEN) (hlen : M ≤ max * LEN) :
    M / LEN ≤ max := by
  by_contra hcon
  push_neg at hcon
  have h1 : (max + 1) * LEN ≤ M / LEN * LEN := Nat.mul_le_mul_right LEN hcon
  have h2 : M / LEN * LEN ≤ M := Nat.div_mul_le_self _ _
  have h3 : (max + 1) * LEN = max * LEN + LEN := by ring
  omega

theorem iterate_mkState (max LEN : Nat) (es : List α)
    (hL : 0 < LEN) (hLEN : LEN < 2 ^ 32) (hmax : max < 2 ^ 32)
    (hlen : es.length ≤ max * LEN) :
    Array.iterate_elements LEN (mkState max LEN es) = es.map some := by
  have hqle : es.length / LEN ≤ max := div_le_of_le_mul LEN es.length max hL hlen
  have hq32 : es.length / LEN < 2 ^ 32 := Nat.lt_of_le_of_lt hqle hmax
  have hr : es.length % LEN < LEN := Nat.mod_lt _ hL
  have hr32 : es.length % LEN < 2 ^ 32 := lt_trans hr hLEN
  have hdm : LEN * (es.length / LEN) + es.length % LEN = es.length :=
    Nat.div_add_mod _ _
  have hcomm : es.length / LEN * LEN = LEN * (es.length / LEN) := Nat.mul_comm _ _
  have hcur : (mkState max LEN es).cur_pos =
      encode (es.length / LEN) (es.length % LEN) := rfl
  have hhi : Array.node_index (mkState max LEN es).cur_pos = es.length / LEN := by
    rw [hcur, node_index_encode _ _ hq32 hr32]
  have hlo : Array.elem_index (mkState max LEN es).cur_pos = es.length % LEN := by
    rw [hcur, elem_index_encode _ _ hr32]
  have hnodes_def : (mkState max LEN es).nodes = mkNodes max LEN es := rfl
  have key : Array.iterate_elements LEN (mkState max LEN es) =
      (List.range (es.length / LEN + 1)).flatMap
        (fun i =>
          (List.range (if i = es.length / LEN then es.length % LEN else LEN)).map
            fun j => es[i * LEN + j]?) := by
    simp only [Array.iterate_elements, hhi, hlo, hnodes_def]
    apply flatMap_congruence
    intro i hi
    rw [List.mem_range] at hi
    by_cases hiq : i = es.length / LEN
    · subst hiq
      rw [if_pos rfl]
      by_cases hr0 : es.length % LEN = 0
      · rw [hr0]
        simp
      · have hqlt : es.length / LEN < max := by
          rcases Nat.lt_or_ge es.length (max * LEN) with hlt | hge
          · rw [Nat.div_lt_iff_lt_mul hL]
            exact hlt
          · have heq : es.length = max * LEN := by omega
            exact absurd (by rw [heq, Nat.mul_mod_left]) hr0
        have hseg : es.length / LEN * LEN < es.length := by omega
        have hnode : (mkNodes max LEN es).getD (es.length / LEN) none =
            some (segContents LEN es (es.length / LEN)) := by
          rw [List.getD_eq_getElem?_getD, mkNodes_getElem?, if_pos hqlt, if_pos hseg]
          rfl
        rw [hnode]
        apply List.map_congr_left
        intro j hj
        rw [List.mem_range] at hj
        rw [Option.some_bind, List.getD_eq_getElem?_getD, segContents_getElem?,
          if_pos (by omega)]
        rfl
    · rw [if_neg hiq]
      have hilt : i < es.length / LEN := by omega
      have hiltmax : i < max := by omega
      have hseg : i * LEN < es.length := by
        have := seg_lt_of_lt_div LEN es.length i 0 hilt hL
        omega
      have hnode : (mkNodes max LEN es).getD i none =
          some (segContents LEN es i) := by
        rw [List.getD_eq_getElem?_getD, mkNodes_getElem?, if_pos hiltmax, if_pos hseg]
        rfl
      rw [hnode]
      apply List.map_congr_left
      intro j hj
      rw [List.mem_range] at hj
      rw [Option.some_bind, List.getD_eq_getElem?_getD, segContents_getElem?, if_pos hj]
      rfl
  rw [key, range_flatMap_partial]
  have hM : es.length / LEN * LEN + es.length % LEN = es.length := by omega
  rw [hM, range_map_getElem?]

theorem mkNodes_getD_isSome (max LEN : Nat) (es : List α) (i : Nat) (hi : i < max) :
    ((mkNodes max LEN es).getD i none).isSome = true ↔ i * LEN < es.length := by
  rw [List.getD_eq_getElem?_getD, mkNodes_getElem?, if_pos hi]
  by_cases h : i * LEN < es.length
  · simp [h]
  · simp [h]

theorem mkNodes_getD_of_ge (max LEN : Nat) (es : List α) (i : Nat) (hi : max ≤ i) :
    (mkNodes max LEN es).getD i none = none := by
  rw [List.getD_eq_getElem?_getD, mkNodes_getElem?, if_neg (by omega)]
  rfl

theorem seg_lt_iff_lt_ceil (LEN M i : Nat) (hL : 0 < LEN) :
    i * LEN < M ↔ i < (M + LEN - 1) / LEN := by
  constructor
  · intro h
    have h2 : (i + 1) * LEN = i * LEN + LEN := by ring
    have h1 : (i + 1) * LEN ≤ M + LEN - 1 := by omega
    exact (Nat.le_div_iff_mul_le hL).mpr h1
  · intro h
    have h1 : (i + 1) * LEN ≤ M + LEN - 1 := (Nat.le_div_iff_mul_le hL).mp h
    have h2 : (i + 1) * LEN = i * LEN + LEN := by ring
    omega

theorem ceil_le_of_le_mul (LEN M max : Nat) (hL : 0 < LEN) (hlen : M ≤ max * LEN) :
    (M + LEN - 1) / LEN ≤ max := by
  by_contra hcon
  push_neg at hcon
  have h1 : (max + 1) * LEN ≤ M + LEN - 1 := (Nat.le_div_iff_mul_le hL).mp hcon
  have h2 : (max + 1) * LEN = max * LEN + LEN := by ring
  omega

theorem countP_range_lt (c : Nat) : ∀ n : Nat,
    (List.range n).countP (fun i => decide (i < c)) = min c n := by
  intro n
  induction n with
  | zero => simp
  | succ n ih =>
    rw [List.range_succ, List.countP_append, ih, List.countP_cons, List.countP_nil]
    by_cases h : n < c <;> simp [h] <;> omega

theorem countP_isSome_mkNodes (max LEN : Nat) (es : List α) (hL : 0 < LEN)
    (hlen : es.length ≤ max * LEN) :
    (mkNodes max LEN es).countP (fun o => o.isSome) =
      (es.length + LEN - 1) / LEN := by
  rw [mkNodes, List.countP_map]
  have hfun : ((fun o : Option (Node α) => o.isSome) ∘
      (fun i => if i * LEN < es.length then some (segContents LEN es i) else none)) =
      fun i => decide (i < (es.length + LEN - 1) / LEN) := by
    funext i
    by_cases h : i * LEN < es.length
    · have h2 : i < (es.length + LEN - 1) / LEN := (seg_lt_iff_lt_ceil LEN _ i hL).mp h
      simp [Function.comp, h, h2]
    · have h2 : ¬ i < (es.length + LEN - 1) / LEN :=
        fun hc => h ((seg_lt_iff_lt_ceil LEN _ i hL).mpr hc)
      simp [Function.comp, h, h2]
  rw [hfun, countP_range_lt]
  have := ceil_le_of_le_mul LEN es.length max hL hlen
  omega

theorem foldl_set_none_length (ns : List (Option β)) (k : Nat) :
    ((List.range k).foldl (fun acc j => acc.set j none) ns).length = ns.length := by
  induction k with
  | zero => rfl
  | succ k ih =>
    rw [List.range_succ, List.foldl_append]
    simp [ih]

theorem foldl_set_none_getElem? (ns : List (Option β)) (k i : Nat) :
    ((List.range k).foldl (fun acc j => acc.set j none) ns)[i]? =
      if i < k ∧ i < ns.length then some none else ns[i]? := by
  induction k with
  | zero => simp
  | succ k ih =>
    rw [List.range_succ, List.foldl_append]
    simp only [List.foldl_cons, List.foldl_nil]
    rw [List.getElem?_set, foldl_set_none_length, ih]
    by_cases hki : k = i
    · subst hki
      rw [if_pos rfl]
      by_cases hlen : k < ns.length
      · rw [if_pos hlen, if_pos (And.intro (Nat.lt_succ_self k) hlen)]
      · rw [if_neg hlen, if_neg (fun hc => hlen hc.2),
          List.getElem?_eq_none (Nat.le_of_not_lt hlen)]
    · rw [if_neg hki]
      by_cases h1 : i < k ∧ i < ns.length
      · rw [if_pos h1, if_pos (And.intro (Nat.lt_succ_of_lt h1.1) h1.2)]
      · rw [if_neg h1, if_neg (fun hc => h1 (And.intro (by omega) hc.2))]

theorem reset_cond_mkState (max LEN : Nat) (es : List α) (hL : 0 < LEN)
    (hlen : es.length ≤ max * LEN) :
    ((List.range (es.length / LEN + 1)).all
        (fun i => ((mkNodes max LEN es).getD i none).isSome)) = true ↔
      (1 ≤ es.length ∧ ¬ es.length % LEN = 0) := by
  have hdm : LEN * (es.length / LEN) + es.length % LEN = es.length :=
    Nat.div_add_mod _ _
  have hr : es.length % LEN < LEN := Nat.mod_lt _ hL
  rw [List.all_eq_true]
  constructor
  · intro h
    have hq := h (es.length / LEN) (by rw [List.mem_range]; omega)
    by_cases hqmax : es.length / LEN < max
    · rw [mkNodes_getD_isSome max LEN es _ hqmax] at hq
      have hcomm : es.length / LEN * LEN = LEN * (es.length / LEN) := Nat.mul_comm _ _
      omega
    · rw [mkNodes_getD_of_ge max LEN es _ (by omega)] at hq
      simp at hq
  · rintro ⟨h1, hr0⟩
    intro i hi
    rw [List.mem_range] at hi
    have hqmax : es.length / LEN < max := by
      rw [Nat.div_lt_iff_lt_mul hL]
      rcases Nat.lt_or_ge es.length (max * LEN) with hlt | hge
      · exact hlt
      · have heq : es.length = max * LEN := by omega
        exact absurd (by rw [heq, Nat.mul_mod_left]) hr0
    rw [mkNodes_getD_isSome max LEN es i (by omega)]
    have h2 : i * LEN ≤ es.length / LEN * LEN := Nat.mul_le_mul_right LEN (by omega)
    have hcomm : es.length / LEN * LEN = LEN * (es.length / LEN) := Nat.mul_comm _ _
    omega

theorem reset_mkState_isSome (max LEN : Nat) (es : List α)
    (hL : 0 < LEN) (hLEN : LEN < 2 ^ 32) (hmax : max < 2 ^ 32)
    (hlen : es.length ≤ max * LEN) :
    (Array.reset (mkState max LEN es)).isSome = true ↔
      (1 ≤ es.length ∧ ¬ es.length % LEN = 0) := by
  have hqle : es.length / LEN ≤ max := div_le_of_le_mul LEN es.length max hL hlen
  have hq32 : es.length / LEN < 2 ^ 32 := Nat.lt_of_le_of_lt hqle hmax
  have hr32 : es.length % LEN < 2 ^ 32 := lt_trans (Nat.mod_lt _ hL) hLEN
  have hhi : Array.node_index (mkState max LEN es).cur_pos = es.length / LEN :=
    node_index_encode _ _ hq32 hr32
  have hnodes_def : (mkState max LEN es).nodes = mkNodes max LEN es := rfl
  rw [← reset_cond_mkState max LEN es hL hlen]
  simp only [Array.reset, hhi, hnodes_def]
  by_cases hcond : ((List.range (es.length / LEN + 1)).all
      (fun i => ((mkNodes max LEN es).getD i none).isSome)) = true
  · rw [if_pos hcond]
    exact ⟨fun _ => hcond, fun _ => rfl⟩
  · rw [if_neg hcond]
    exact ⟨fun h => absurd h (by simp), fun h => absurd h hcond⟩

theorem reset_mkState_eq (max LEN : Nat) (es : List α)
    (hL : 0 < LEN) (hLEN : LEN < 2 ^ 32) (hmax : max < 2 ^ 32)
    (hlen : es.length ≤ max * LEN) (h1 : 1 ≤ es.length)
    (hr0 : ¬ es.length % LEN = 0) :
    Array.reset (mkState max LEN es) = some (Array.init α max) := by
  have hqle : es.length / LEN ≤ max := div_le_of_le_mul LEN es.length max hL hlen
  have hq32 : es.length / LEN < 2 ^ 32 := Nat.lt_of_le_of_lt hqle hmax
  have hr : es.length % LEN < LEN := Nat.mod_lt _ hL
  have hr32 : es.length % LEN < 2 ^ 32 := lt_trans hr hLEN
  have hdm : LEN * (es.length / LEN) + es.length % LEN = es.length :=
    Nat.div_add_mod _ _
  have hhi : Array.node_index (mkState max LEN es).cur_pos = es.length / LEN :=
    node_index_encode _ _ hq32 hr32
  have hnodes_def : (mkState max LEN es).nodes = mkNodes max LEN es := rfl
  have hcond := (reset_cond_mkState max LEN es hL hlen).mpr ⟨h1, hr0⟩
  simp only [Array.reset, hhi, hnodes_def]
  rw [if_pos hcond]
  have hclear : (List.range (es.length / LEN + 1)).foldl
      (fun ns i => ns.set i none) (mkNodes max LEN es) =
      List.replicate max none := by
    apply List.ext_getElem?
    intro i
    rw [foldl_set_none_getElem?, mkNodes_length, List.getElem?_replicate]
    by_cases hi : i < max
    · by_cases hik : i < es.length / LEN + 1
      · rw [if_pos ⟨hik, hi⟩, if_pos hi]
      · rw [if_neg (by omega), if_pos hi, mkNodes_getElem?, if_pos hi]
        have hge : es.length ≤ i * LEN := by
          have h2 : (es.length / LEN + 1) * LEN ≤ i * LEN :=
            Nat.mul_le_mul_right LEN (by omega)
          have h3 : (es.length / LEN + 1) * LEN = LEN * (es.length / LEN) + LEN := by
            ring
          omega
        rw [if_neg (by omega)]
    · rw [if_neg (by omega), if_neg hi, mkNodes_getElem?, if_neg hi]
  rw [hclear]
  rfl

theorem objs_num_mkState (max LEN : Nat) (es : List α) :
    Array.objs_num (mkState max LEN es) = es.length % 2 ^ 32 := rfl

theorem add_cur_pos (LEN : Nat) (s : Array α) (e : α) (s' : Array α)
    (h : Array.add LEN s e = some s') : s'.cur_pos = Array.next LEN s.cur_pos := by
  simp only [Array.add] at h
  split at h
  · exact Option.noConfusion h
  · injection h with h2
    rw [← h2]

theorem cast_from_oop_addr_eq (region_idx bottom w max obj : Nat) (hw : w ≤ 32)
    (hfit : obj - bottom ≤ 2 ^ w - 1) :
    G1EvacuationFailureObjsInHR.cast_from_oop_addr
        (G1EvacuationFailureObjsInHR.mkTracker region_idx bottom w max) obj =
      some (obj - bottom) := by
  have hmask : (G1EvacuationFailureObjsInHR.mkTracker region_idx bottom w max).offset_mask =
      2 ^ w - 1 := rfl
  have hbot : (G1EvacuationFailureObjsInHR.mkTracker region_idx bottom w max).bottom =
      bottom := rfl
  have hpw : 0 < 2 ^ w := Nat.pos_pow_of_pos w (by omega)
  have hlt : obj - bottom < 2 ^ w := by omega
  have hle32 : 2 ^ w ≤ 2 ^ 32 := Nat.pow_le_pow_right (by omega) hw
  simp only [G1EvacuationFailureObjsInHR.cast_from_oop_addr, hmask, hbot]
  rw [if_pos (by omega), Nat.and_pow_two_sub_one_eq_mod, Nat.mod_eq_of_lt hlt,
    Nat.mod_eq_of_lt (by omega)]

theorem recordAll_addAll (t : G1EvacuationFailureObjsInHR) (as : List Nat) (w : Nat)
    (hmask : t.offset_mask = 2 ^ w - 1) (hw : w ≤ 32)
    (hin : ∀ a ∈ as, a - t.bottom ≤ t.offset_mask) :
    G1EvacuationFailureObjsInHR.recordAll t as =
      (Array.addAll NODE_LENGTH t.nodes_array (as.map fun a => a - t.bottom)).map
        fun s => { t with nodes_array := s } := by
  induction as generalizing t with
  | nil => rfl
  | cons a as ih =>
    have hcast : G1EvacuationFailureObjsInHR.cast_from_oop_addr t a =
        some (a - t.bottom) := by
      have hfit : a - t.bottom ≤ t.offset_mask := hin a (by simp)
      have hpw : 0 < 2 ^ w := Nat.pos_pow_of_pos w (by omega)
      have hlt : a - t.bottom < 2 ^ w := by omega
      have hle32 : (2 : Nat) ^ w ≤ 2 ^ 32 := Nat.pow_le_pow_right (by omega) hw
      simp only [G1EvacuationFailureObjsInHR.cast_from_oop_addr]
      rw [if_pos hfit, hmask, Nat.and_pow_two_sub_one_eq_mod, Nat.mod_eq_of_lt hlt,
        Nat.mod_eq_of_lt (by omega)]
    have hrec : G1EvacuationFailureObjsInHR.record t a =
        (Array.add NODE_LENGTH t.nodes_array (a - t.bottom)).map
          fun arr => { t with nodes_array := arr } := by
      simp only [G1EvacuationFailureObjsInHR.record, hcast, Option.some_bind]
    rw [List.map_cons]
    simp only [G1EvacuationFailureObjsInHR.recordAll, hrec, Array.addAll]
    cases hadd : Array.add NODE_LENGTH t.nodes_array (a - t.bottom) with
    | none => simp
    | some s2 =>
      simp only [Option.map_some']
      have ih2 := ih { t with nodes_array := s2 } hmask
        (fun b hb => hin b (by simp [hb]))
      simp only [G1EvacuationFailureObjsInHR.recordAll] at ih2 ⊢
      exact ih2

/-- C4 (counterexample): the claim quantifies over every cursor value whose
slot index is below LENGTH, but at a cursor packing segment index
2^32 - 1 with slot index LENGTH - 1 the 64-bit addition hi + (1l << 32)
wraps (the source's assert hi < HIGH_MASK guards exactly this state), so
the successor's segment index is 0 rather than the old segment index plus
one.  Concretely with LENGTH = 2 and cursor (2^32 - 1) * 2^32 + 1: the
slot index is 1 < 2 and equals LENGTH - 1, yet next yields 0. -/
theorem C4_counterexample :
    Array.elem_index 18446744069414584321 < 2 ∧
    Array.elem_index 18446744069414584321 = 2 - 1 ∧
    Array.next 2 18446744069414584321 = 0 ∧
    ¬ Array.node_index (Array.next 2 18446744069414584321) =
        Array.node_index 18446744069414584321 + 1 := by
  decide

/-- C4 (amended): for every cursor value n below 2^64 whose slot index is
less than LENGTH (LENGTH below 2^32, being a uint32 template parameter)
and, additionally, whose segment index is less than 2^32 - 1 (the
condition of the source's assert hi < HIGH_MASK, which the counterexample
shows cannot be dropped), next keeps the segment index and increments the
slot index, except when the slot index is LENGTH - 1, in which case the
slot index becomes 0 and the segment index increments by exactly 1. -/
theorem C4_next_successor (LEN n : Nat) (h64 : n < 2 ^ 64)
    (hlo : Array.elem_index n < LEN) (hLEN : LEN < 2 ^ 32)
    (hhi : Array.node_index n < 2 ^ 32 - 1) :
    (Array.elem_index n + 1 = LEN →
      Array.node_index (Array.next LEN n) = Array.node_index n + 1 ∧
      Array.elem_index (Array.next LEN n) = 0) ∧
    (Array.elem_index n + 1 ≠ LEN →
      Array.node_index (Array.next LEN n) = Array.node_index n ∧
      Array.elem_index (Array.next LEN n) = Array.elem_index n + 1) := by
  have hl32 : n % 2 ^ 32 < 2 ^ 32 := Nat.mod_lt _ (by positivity)
  have hq32 : n / 2 ^ 32 < 2 ^ 32 := by
    rw [Nat.div_lt_iff_lt_mul (by positivity)]
    calc n < 2 ^ 64 := h64
      _ = 2 ^ 32 * 2 ^ 32 := by norm_num
  have hni : Array.node_index n = n / 2 ^ 32 := by
    rw [Array.node_index_eq, Nat.mod_eq_of_lt hq32]
  have hei : Array.elem_index n = n % 2 ^ 32 := Array.elem_index_eq n
  have hdec : encode (n / 2 ^ 32) (n % 2 ^ 32) = n := by
    rw [encode, Nat.mul_comm]
    exact Nat.div_add_mod n (2 ^ 32)
  rw [hni] at hhi
  have hlo' : n % 2 ^ 32 < LEN := by rw [← hei]; exact hlo
  have hnext := next_encode LEN (n / 2 ^ 32) (n % 2 ^ 32) (by omega) hlo' hLEN
  rw [hdec] at hnext
  constructor
  · intro hwrap
    have hw' : n % 2 ^ 32 + 1 = LEN := by rw [← hei]; exact hwrap
    rw [hnext, if_pos hw', hni]
    exact ⟨node_index_encode _ _ (by omega) (by positivity),
      elem_index_encode _ _ (by positivity)⟩
  · intro hnw
    have hw' : ¬ n % 2 ^ 32 + 1 = LEN := by rw [← hei]; exact hnw
    rw [hnext, if_neg hw', hni, hei]
    exact ⟨node_index_encode _ _ (by omega) (by omega),
      elem_index_encode _ _ (by omega)⟩

/-- Witness for C4 at LENGTH = 256 and cursor value 255 (segment 0, slot
255 = LENGTH - 1): the successor is segment 1, slot 0. -/
theorem C4_witness :
    Array.node_index (Array.next 256 255) = Array.node_index 255 + 1 ∧
    Array.elem_index (Array.next 256 255) = 0 :=
  (C4_next_successor 256 255 (by norm_num) (by decide) (by norm_num) (by decide)).1
    (by decide)

/-- C9: the cursor is monotonically non-decreasing between resets: on
every cursor value satisfying the source's asserted validity conditions
(slot index below LENGTH, LENGTH at most LOW_MASK, high part below
HIGH_MASK) next is strictly increasing, and every completed add replaces
the cursor by exactly the successor of the value it read; no operation of
the log other than reset writes any other value to the cursor. -/
theorem C9_cursor_monotone {α : Type} (LEN n : Nat) (s : Array α) (e : α) (s' : Array α)
    (h64 : n < 2 ^ 64) (hlo : Array.elem_index n < LEN) (hLEN : LEN ≤ LOW_MASK)
    (hhi : Array.high n < HIGH_MASK) (hadd : Array.add LEN s e = some s') :
    n < Array.next LEN n ∧ s'.cur_pos = Array.next LEN s.cur_pos := by
  refine ⟨?_, add_cur_pos LEN s e s' hadd⟩
  have hLOW : LOW_MASK = 2 ^ 32 - 1 := LOW_MASK_eq
  have hHIGH : HIGH_MASK = (2 ^ 32 - 1) * 2 ^ 32 := HIGH_MASK_eq
  have hl32 : n % 2 ^ 32 < 2 ^ 32 := Nat.mod_lt _ (by positivity)
  have hq32 : n / 2 ^ 32 < 2 ^ 32 := by
    rw [Nat.div_lt_iff_lt_mul (by positivity)]
    calc n < 2 ^ 64 := h64
      _ = 2 ^ 32 * 2 ^ 32 := by norm_num
  have hhival : Array.high n = n / 2 ^ 32 * 2 ^ 32 := by
    rw [Array.high_eq, Nat.mod_eq_of_lt hq32]
  have hq' : n / 2 ^ 32 < 2 ^ 32 - 1 := by
    rw [hhival, hHIGH] at hhi
    exact lt_of_mul_lt_mul_right hhi (Nat.zero_le _)
  have hlo' : n % 2 ^ 32 < LEN := by rw [← Array.elem_index_eq]; exact hlo
  have hdec : encode (n / 2 ^ 32) (n % 2 ^ 32) = n := by
    rw [encode, Nat.mul_comm]
    exact Nat.div_add_mod n (2 ^ 32)
  have hnext := next_encode LEN (n / 2 ^ 32) (n % 2 ^ 32) (by omega) hlo' (by omega)
  rw [hdec] at hnext
  rw [hnext]
  by_cases hc : n % 2 ^ 32 + 1 = LEN
  · rw [if_pos hc, encode]
    omega
  · rw [if_neg hc, encode]
    omega

/-- Witness for C9: at cursor 5 with LENGTH 7 the successor 6 is larger,
and a completed add from the fresh one-segment log moves the cursor from 0
to its successor. -/
theorem C9_witness :
    (5 : Nat) < Array.next 7 5 ∧
    (Array.mk 1 [some [some 3, none, none, none, none, none, none]] 1 1 :
        Array Nat).cur_pos =
      Array.next 7 (Array.init Nat 1).cur_pos :=
  C9_cursor_monotone 7 5 (Array.init Nat 1) 3
    (Array.mk 1 [some [some 3, none, none, none, none, none, none]] 1 1)
    (by norm_num) (by decide) (by decide) (by decide) (by decide)

/-- C2 (counterexample): the claim asserts count() returns M for every M
at most max segments times LENGTH, but _elements_num is a 32-bit uint and
Atomic::inc wraps modulo 2^32: with max = 2^24 segments of LENGTH = 256
the claim's bound admits M = 2^32 completed insertions, after which the
counter reads 2^32 mod 2^32 = 0, not M.  (The visit list is still exactly
the M inserted elements; only the count() conjunct of the claim fails.) -/
theorem C2_counterexample :
    (List.replicate (2 ^ 32) (0 : Nat)).length ≤ 2 ^ 24 * 256 ∧
    Array.addAll 256 (Array.init Nat (2 ^ 24)) (List.replicate (2 ^ 32) (0 : Nat)) =
      some (mkState (2 ^ 24) 256 (List.replicate (2 ^ 32) (0 : Nat))) ∧
    Array.objs_num (mkState (2 ^ 24) 256 (List.replicate (2 ^ 32) (0 : Nat))) = 0 ∧
    ¬ Array.objs_num (mkState (2 ^ 24) 256 (List.replicate (2 ^ 32) (0 : Nat))) =
        (List.replicate (2 ^ 32) (0 : Nat)).length := by
  refine ⟨?_, addAll_mkState (2 ^ 24) 256 _ (by norm_num) (by norm_num) (by norm_num)
    (by rw [List.length_replicate]; norm_num), ?_, ?_⟩
  · rw [List.length_replicate]
    norm_num
  · rw [objs_num_mkState, List.length_replicate]
    norm_num
  · rw [objs_num_mkState, List.length_replicate]
    norm_num

/-- C2 (amended): after the M elements es (M at most max * LEN) have been
added in order to a fresh log, all M adds complete, objs_num (the spec's
count()) returns M mod 2^32 — the element counter is a 32-bit unsigned,
so it equals M exactly whenever M < 2^32, which the counterexample shows
cannot be strengthened to all M admitted by the capacity bound — and
iterate_elements visits segments in ascending segment-index order — full
segments in full, the final partial segment up to the slot index read
from the cursor — producing exactly the M inserted elements in insertion
order; in particular the visited multiset equals the inserted multiset,
with no loss and no duplication at the log layer. -/
theorem C2_add_count_iterate {α : Type} (max LEN : Nat) (es : List α)
    (hL : 0 < LEN) (hLEN : LEN < 2 ^ 32) (hmax : max < 2 ^ 32)
    (hlen : es.length ≤ max * LEN) :
    ∃ s : Array α, Array.addAll LEN (Array.init α max) es = some s ∧
      Array.objs_num s = es.length % 2 ^ 32 ∧
      Array.iterate_elements LEN s = es.map some ∧
      (Array.iterate_elements LEN s).length = es.length := by
  refine ⟨mkState max LEN es, addAll_mkState max LEN es hL hLEN hmax hlen, rfl, ?_, ?_⟩
  · exact iterate_mkState max LEN es hL hLEN hmax hlen
  · rw [iterate_mkState max LEN es hL hLEN hmax hlen, List.length_map]

/-- Witness for C2 with max = 2 segments of LENGTH = 3 and four insertions
(one full segment plus a partial one). -/
theorem C2_witness :
    ∃ s : Array Nat, Array.addAll 3 (Array.init Nat 2) [10, 11, 12, 13] = some s ∧
      Array.objs_num s = 4 ∧
      Array.iterate_elements 3 s = [10, 11, 12, 13].map some ∧
      (Array.iterate_elements 3 s).length = 4 :=
  C2_add_count_iterate 2 3 [10, 11, 12, 13] (by norm_num) (by norm_num) (by norm_num)
    (by norm_num)

/-- C3: along any sequence of M ≤ max * LEN completed adds from a fresh
log, the segment-table entry at index i is non-null after the first m adds
exactly when i * LEN < m: entry i therefore flips from null to non-null
exactly once, at the add whose 0-based insertion index is i * LEN — the
add whose reserved slot index is i * LEN mod LEN = 0 — and never changes
again before reset; and after all M adds exactly
ceil(M / LEN) = (M + LEN - 1) / LEN entries are non-null and all others
are null. -/
theorem C3_segment_allocation {α : Type} (max LEN : Nat) (es : List α)
    (hL : 0 < LEN) (hLEN : LEN < 2 ^ 32) (hmax : max < 2 ^ 32)
    (hlen : es.length ≤ max * LEN) :
    (∀ m, m ≤ es.length →
      Array.addAll LEN (Array.init α max) (es.take m) =
          some (mkState max LEN (es.take m)) ∧
      ∀ i, i < max →
        (((mkState max LEN (es.take m)).nodes.getD i none).isSome = true ↔
          i * LEN < m)) ∧
    (mkState max LEN es).nodes.countP (fun o => o.isSome) =
      (es.length + LEN - 1) / LEN := by
  constructor
  · intro m hm
    have hlm : (es.take m).length = m := by
      rw [List.length_take]
      omega
    constructor
    · exact addAll_mkState max LEN (es.take m) hL hLEN hmax (by rw [hlm]; omega)
    · intro i hi
      have h := mkNodes_getD_isSome max LEN (es.take m) i hi
      rw [hlm] at h
      exact h
  · exact countP_isSome_mkNodes max LEN es hL hlen

/-- Witness for C3 with max = 2 segments of LENGTH = 2 and three
insertions: ceil(3/2) = 2 segments end up allocated. -/
theorem C3_witness :
    (∀ m, m ≤ ([5, 6, 7] : List Nat).length →
      Array.addAll 2 (Array.init Nat 2) ([5, 6, 7].take m) =
          some (mkState 2 2 ([5, 6, 7].take m)) ∧
      ∀ i, i < 2 →
        (((mkState 2 2 ([5, 6, 7].take m)).nodes.getD i none).isSome = true ↔
          i * 2 < m)) ∧
    (mkState 2 2 ([5, 6, 7] : List Nat)).nodes.countP (fun o => o.isSome) = 2 :=
  C3_segment_allocation 2 2 [5, 6, 7] (by norm_num) (by norm_num) (by norm_num)
    (by norm_num)

/-- C7 (counterexample): with max = 1 segment of LENGTH = 2, inserting
exactly max * LENGTH = 2 elements satisfies the claim's precondition
(insertions at most max * LENGTH), yet iterate_elements and reset then
access segment-table index 1 = max: their loops load _nodes[i] for every
i up to node_index of the cursor, which after 2 completed adds equals 1 —
an access beyond the configured table. -/
theorem C7_counterexample :
    ([5, 6] : List Nat).length ≤ 1 * 2 ∧
    Array.addAll 2 (Array.init Nat 1) [5, 6] =
      some (Array.mk 1 [some [some 5, some 6]] 4294967296 2) ∧
    Array.iterate_table_indices
        (Array.mk 1 [some [some 5, some 6]] 4294967296 2 : Array Nat) = [0, 1] ∧
    Array.reset_table_indices
        (Array.mk 1 [some [some 5, some 6]] 4294967296 2 : Array Nat) = [0, 1] ∧
    ¬ (1 : Nat) < 1 := by
  decide

/-- C7 (amended): under the stricter precondition that strictly fewer
than max * LEN insertions complete between resets (the counterexample
shows the claim's "at most" bound admits out-of-table accesses), after any
prefix of m of the adds every segment-table index accessed is below max:
the index node_index(cursor) that the next add reads and possibly stores,
and the indices 0..node_index(cursor) that iterate_elements loads and
that reset frees and nulls. -/
theorem C7_table_indices_in_bounds {α : Type} (max LEN : Nat) (es : List α) (m : Nat)
    (hL : 0 < LEN) (hLEN : LEN < 2 ^ 32) (hmax : max < 2 ^ 32)
    (hlen : es.length < max * LEN) (hm : m ≤ es.length) :
    Array.addAll LEN (Array.init α max) (es.take m) =
        some (mkState max LEN (es.take m)) ∧
    Array.add_table_index (mkState max LEN (es.take m)) < max ∧
    (∀ i ∈ Array.iterate_table_indices (mkState max LEN (es.take m)), i < max) ∧
    (∀ i ∈ Array.reset_table_indices (mkState max LEN (es.take m)), i < max) := by
  have hlm : (es.take m).length = m := by
    rw [List.length_take]
    omega
  have hq32 : m / LEN < 2 ^ 32 :=
    Nat.lt_of_le_of_lt (div_le_of_le_mul LEN m max hL (by omega)) hmax
  have hr32 : m % LEN < 2 ^ 32 := lt_trans (Nat.mod_lt _ hL) hLEN
  have hqmax : m / LEN < max := by
    rw [Nat.div_lt_iff_lt_mul hL]
    omega
  have hcur : (mkState max LEN (es.take m)).cur_pos = encode (m / LEN) (m % LEN) := by
    have h0 : (mkState max LEN (es.take m)).cur_pos =
        encode ((es.take m).length / LEN) ((es.take m).length % LEN) := rfl
    rw [h0, hlm]
  have hhi : Array.node_index (mkState max LEN (es.take m)).cur_pos = m / LEN := by
    rw [hcur, node_index_encode _ _ hq32 hr32]
  refine ⟨addAll_mkState max LEN (es.take m) hL hLEN hmax (by rw [hlm]; omega),
    ?_, ?_, ?_⟩
  · rw [Array.add_table_index, hhi]
    exact hqmax
  · intro i hi
    rw [Array.iterate_table_indices, hhi, List.mem_range] at hi
    omega
  · intro i hi
    rw [Array.reset_table_indices, hhi, List.mem_range] at hi
    omega

/-- Witness for C7 with max = 2 segments of LENGTH = 2 and all three of
the 3 < 4 insertions completed. -/
theorem C7_witness :
    Array.addAll 2 (Array.init Nat 2) ([5, 6, 7].take 3) =
        some (mkState 2 2 ([5, 6, 7].take 3)) ∧
    Array.add_table_index (mkState 2 2 (([5, 6, 7] : List Nat).take 3)) < 2 ∧
    (∀ i ∈ Array.iterate_table_indices (mkState 2 2 (([5, 6, 7] : List Nat).take 3)),
      i < 2) ∧
    (∀ i ∈ Array.reset_table_indices (mkState 2 2 (([5, 6, 7] : List Nat).take 3)),
      i < 2) :=
  C7_table_indices_in_bounds 2 2 [5, 6, 7] 3 (by norm_num) (by norm_num) (by norm_num)
    (by norm_num) (by norm_num)

/-- C10: after M completed adds from a fresh log, reset (which the
destructor also invokes) calls free_node on every segment-table entry
from 0 through node_index(cursor) inclusive without a null check — its
accessed indices are exactly reset_table_indices — and the run completes
without free_node dereferencing a null entry (modelled: reset returns
some) if and only if M is at least 1 and M is not a multiple of LEN.  In
particular reset on an empty log, or after a number of adds that exactly
fills its segments, dereferences the null entry at index M / LEN. -/
theorem C10_reset_free_null_iff {α : Type} (max LEN : Nat) (es : List α) (s : Array α)
    (hL : 0 < LEN) (hLEN : LEN < 2 ^ 32) (hmax : max < 2 ^ 32)
    (hlen : es.length ≤ max * LEN)
    (hadd : Array.addAll LEN (Array.init α max) es = some s) :
    Array.reset_table_indices s = List.range (Array.node_index s.cur_pos + 1) ∧
    ((Array.reset s).isSome = true ↔ (1 ≤ es.length ∧ ¬ es.length % LEN = 0)) := by
  have hchar := addAll_mkState max LEN es hL hLEN hmax hlen
  rw [hadd] at hchar
  injection hchar with h2
  subst h2
  exact ⟨rfl, reset_mkState_isSome max LEN es hL hLEN hmax hlen⟩

/-- Witness for C10: one add into a log with max = 2 segments of
LENGTH = 2; since 1 ≥ 1 and 1 mod 2 ≠ 0, reset completes. -/
theorem C10_witness :
    Array.reset_table_indices (Array.mk 2 [some [some 5, none], none] 1 1 : Array Nat) =
      List.range (Array.node_index
        (Array.mk 2 [some [some 5, none], none] 1 1 : Array Nat).cur_pos + 1) ∧
    ((Array.reset (Array.mk 2 [some [some 5, none], none] 1 1 : Array Nat)).isSome =
        true ↔
      (1 ≤ ([5] : List Nat).length ∧ ¬ ([5] : List Nat).length % 2 = 0)) :=
  C10_reset_free_null_iff 2 2 [5] (Array.mk 2 [some [some 5, none], none] 1 1)
    (by norm_num) (by norm_num) (by norm_num) (by norm_num) (by decide)

/-- C6 (counterexample): the freshly constructed log is reachable (zero
completed adds), and reset on it does not complete: the loop frees
entries 0 through node_index(0) = 0 and free_node dereferences the null
entry 0 (modelled: reset returns none), so reset does not restore the
zero state — nor behave like a fresh construction — from every reachable
state. -/
theorem C6_counterexample :
    Array.addAll 2 (Array.init Nat 2) [] = some (Array.init Nat 2) ∧
    Array.reset (Array.init Nat 2) = none := by
  decide

/-- C6 (amended): restricted to reachable states whose completed-add
count M₀ satisfies M₀ ≥ 1 and M₀ mod LEN ≠ 0 — exactly the states on
which reset's unchecked frees touch only non-null entries (see C10) —
reset frees every allocated segment, nulls the table and zeroes the
cursor and counter, returning precisely the freshly constructed state;
hence resetting and then inserting any list of elements yields the same
visitation results as constructing a fresh log and inserting the same
elements. -/
theorem C6_reset_fresh_equiv {α : Type} (max LEN : Nat) (es0 : List α) (s : Array α)
    (hL : 0 < LEN) (hLEN : LEN < 2 ^ 32) (hmax : max < 2 ^ 32)
    (hlen : es0.length ≤ max * LEN) (h1 : 1 ≤ es0.length)
    (hr0 : ¬ es0.length % LEN = 0)
    (hadd : Array.addAll LEN (Array.init α max) es0 = some s) :
    Array.reset s = some (Array.init α max) ∧
    ∀ es : List α,
      ((Array.reset s).bind fun t => Array.addAll LEN t es).map
          (Array.iterate_elements LEN) =
        (Array.addAll LEN (Array.init α max) es).map (Array.iterate_elements LEN) := by
  have hchar := addAll_mkState max LEN es0 hL hLEN hmax hlen
  rw [hadd] at hchar
  injection hchar with h2
  subst h2
  have hres := reset_mkState_eq max LEN es0 hL hLEN hmax hlen h1 hr0
  refine ⟨hres, fun es => ?_⟩
  rw [hres, Option.some_bind]

/-- Witness for C6: one add of 7, reset, then adding 8 and 9 replays
exactly like a fresh log receiving 8 and 9. -/
theorem C6_witness :
    Array.reset (Array.mk 2 [some [some 7, none], none] 1 1 : Array Nat) =
      some (Array.init Nat 2) ∧
    ((Array.reset (Array.mk 2 [some [some 7, none], none] 1 1 : Array Nat)).bind
        fun t => Array.addAll 2 t [8, 9]).map (Array.iterate_elements 2) =
      (Array.addAll 2 (Array.init Nat 2) [8, 9]).map (Array.iterate_elements 2) := by
  have h := C6_reset_fresh_equiv 2 2 [7] (Array.mk 2 [some [some 7, none], none] 1 1)
    (by norm_num) (by norm_num) (by norm_num) (by norm_num) (by norm_num) (by decide)
    (by decide)
  exact ⟨h.1, h.2 [8, 9]⟩

/-- C5: for every object address in the owning region whose word-distance
from the region base is at most the configured offset mask, the stored
offset equals the exact word-distance — the masking in cast_from_oop_addr
does not change it — and cast_from_offset maps it back to the original
address.  The mask is modelled per the spec as the all-ones mask of a bit
width w ≤ 32 (32 since Elem is uint32_t), because the constructor that
configures it is not part of this snapshot. -/
theorem C5_offset_roundtrip (region_idx bottom w max obj : Nat)
    (hw : w ≤ 32) (hin : bottom ≤ obj)
    (hfit : obj - bottom ≤
      (G1EvacuationFailureObjsInHR.mkTracker region_idx bottom w max).offset_mask) :
    G1EvacuationFailureObjsInHR.cast_from_oop_addr
        (G1EvacuationFailureObjsInHR.mkTracker region_idx bottom w max) obj =
      some (obj - bottom) ∧
    G1EvacuationFailureObjsInHR.cast_from_offset
        (G1EvacuationFailureObjsInHR.mkTracker region_idx bottom w max)
        (obj - bottom) = obj := by
  have hmask : (G1EvacuationFailureObjsInHR.mkTracker region_idx bottom w max).offset_mask =
      2 ^ w - 1 := rfl
  rw [hmask] at hfit
  refine ⟨cast_from_oop_addr_eq region_idx bottom w max obj hw hfit, ?_⟩
  show bottom + (obj - bottom) = obj
  omega

/-- Witness for C5: base address 100, bit width 10, object at address
105: offset 5, round trip back to 105. -/
theorem C5_witness :
    G1EvacuationFailureObjsInHR.cast_from_oop_addr
        (G1EvacuationFailureObjsInHR.mkTracker 3 100 10 4) 105 = some 5 ∧
    G1EvacuationFailureObjsInHR.cast_from_offset
        (G1EvacuationFailureObjsInHR.mkTracker 3 100 10 4) 5 = 105 :=
  C5_offset_roundtrip 3 100 10 4 105 (by norm_num) (by norm_num) (by decide)

/-- C8: record of an object whose word-offset from the region base
exceeds the configured mask fails fast — the assertion
offset_mask >= offset in cast_from_oop_addr fires (modelled as the none
branch) before any masking, so nothing is inserted and nothing is
truncated; and for every object record accepts, the masking step
offset & offset_mask leaves the computed offset unchanged. -/
theorem C8_record_fail_fast (region_idx bottom w max obj obj2 : Nat) (hw : w ≤ 32)
    (hover : (G1EvacuationFailureObjsInHR.mkTracker region_idx bottom w max).offset_mask <
      obj - bottom)
    (hfit : obj2 - bottom ≤
      (G1EvacuationFailureObjsInHR.mkTracker region_idx bottom w max).offset_mask) :
    G1EvacuationFailureObjsInHR.record
        (G1EvacuationFailureObjsInHR.mkTracker region_idx bottom w max) obj = none ∧
    G1EvacuationFailureObjsInHR.cast_from_oop_addr
        (G1EvacuationFailureObjsInHR.mkTracker region_idx bottom w max) obj2 =
      some (obj2 - bottom) := by
  constructor
  · have hcast : G1EvacuationFailureObjsInHR.cast_from_oop_addr
        (G1EvacuationFailureObjsInHR.mkTracker region_idx bottom w max) obj = none := by
      simp only [G1EvacuationFailureObjsInHR.cast_from_oop_addr]
      have hb : (G1EvacuationFailureObjsInHR.mkTracker region_idx bottom w max).bottom =
          bottom := rfl
      rw [if_neg (by omega)]
    simp [G1EvacuationFailureObjsInHR.record, hcast]
  · exact cast_from_oop_addr_eq region_idx bottom w max obj2 hw hfit

/-- Witness for C8: with base 100 and mask 2^4 - 1 = 15, recording the
object at address 200 (offset 100 > 15) fails fast, while the accepted
object at 110 stores exactly offset 10. -/
theorem C8_witness :
    G1EvacuationFailureObjsInHR.record
        (G1EvacuationFailureObjsInHR.mkTracker 0 100 4 8) 200 = none ∧
    G1EvacuationFailureObjsInHR.cast_from_oop_addr
        (G1EvacuationFailureObjsInHR.mkTracker 0 100 4 8) 110 = some 10 :=
  C8_record_fail_fast 0 100 4 8 200 110 (by norm_num) (by decide) (by decide)

/-- C1: after any list of recorded objects lying in the tracker's region
(each address at least the base and with word-offset fitting the mask) is
recorded into a fresh tracker, iterate visits a strictly ascending list
of addresses whose members are exactly the distinct recorded addresses —
each distinct recorded object is visited exactly once, in ascending
address order; recording the same address twice yields exactly one visit
to it. -/
theorem C1_iterate_sorted_exactly_once (region_idx bottom w max : Nat) (as : List Nat)
    (t : G1EvacuationFailureObjsInHR) (hw : w ≤ 32)
    (hin : ∀ a ∈ as, bottom ≤ a ∧ a - bottom ≤ 2 ^ w - 1)
    (hcount : as.length ≤ max * NODE_LENGTH) (hmax : max < 2 ^ 32)
    (hrec : G1EvacuationFailureObjsInHR.recordAll
      (G1EvacuationFailureObjsInHR.mkTracker region_idx bottom w max) as = some t) :
    (G1EvacuationFailureObjsInHR.iterate t).Sorted (· < ·) ∧
    ∀ addr, addr ∈ G1EvacuationFailureObjsInHR.iterate t ↔ addr ∈ as := by
  have hLEN0 : 0 < NODE_LENGTH := by decide
  have hLEN32 : NODE_LENGTH < 2 ^ 32 := by decide
  have hrw := recordAll_addAll
    (G1EvacuationFailureObjsInHR.mkTracker region_idx bottom w max) as w rfl hw
    (fun a ha => (hin a ha).2)
  rw [hrw] at hrec
  have hbot : (G1EvacuationFailureObjsInHR.mkTracker region_idx bottom w max).bottom =
      bottom := rfl
  have hna : (G1EvacuationFailureObjsInHR.mkTracker region_idx bottom w max).nodes_array =
      Array.init Nat max := rfl
  simp only [hbot, hna] at hrec
  have hlenoff : (as.map fun a => a - bottom).length ≤ max * NODE_LENGTH := by
    rw [List.length_map]
    exact hcount
  have hchar := addAll_mkState max NODE_LENGTH (as.map fun a => a - bottom)
    hLEN0 hLEN32 hmax hlenoff
  rw [hchar] at hrec
  simp only [Option.map_some'] at hrec
  injection hrec with ht
  have hna2 : t.nodes_array = mkState max NODE_LENGTH (as.map fun a => a - bottom) := by
    rw [← ht]
  have hbot2 : t.bottom = bottom := by rw [← ht]
  have hiter := iterate_mkState max NODE_LENGTH (as.map fun a => a - bottom)
    hLEN0 hLEN32 hmax hlenoff
  have hfm : (((as.map fun a => a - bottom).map some).filterMap id) =
      as.map fun a => a - bottom := by simp
  have hiterate : G1EvacuationFailureObjsInHR.iterate t =
      ((as.map fun a => a - bottom).toFinset.sort (· ≤ ·)).map
        (fun off => bottom + off) := by
    simp only [G1EvacuationFailureObjsInHR.iterate,
      G1EvacuationFailureObjsInHR.cast_from_offset, hna2, hbot2, hiter, hfm]
    apply List.map_congr_left
    intro off hoff
    simp [G1EvacuationFailureObjsInHR.cast_from_offset, hbot2]
  constructor
  · rw [hiterate]
    exact List.Pairwise.map _ (fun a b hab => by omega) (Finset.sort_sorted_lt _)
  · intro addr
    rw [hiterate, List.mem_map]
    constructor
    · rintro ⟨off, hoff, rfl⟩
      rw [Finset.mem_sort, List.mem_toFinset, List.mem_map] at hoff
      obtain ⟨a, ha, rfl⟩ := hoff
      have hba := (hin a ha).1
      have heq : bottom + (a - bottom) = a := by omega
      rw [heq]
      exact ha
    · intro haddr
      refine ⟨addr - bottom, ?_, ?_⟩
      · rw [Finset.mem_sort, List.mem_toFinset, List.mem_map]
        exact ⟨addr, haddr, rfl⟩
      · have hba := (hin addr haddr).1
        omega

/-- Witness for C1: base 100, bit width 10, one segment table entry;
recording offsets 12, 5, 5 (addresses 112, 105, 105, with 105 recorded
twice) yields a strictly ascending visit list containing exactly the two
distinct addresses. -/
theorem C1_witness :
    ∃ t, G1EvacuationFailureObjsInHR.recordAll
        (G1EvacuationFailureObjsInHR.mkTracker 7 100 10 1) [112, 105, 105] = some t ∧
      (G1EvacuationFailureObjsInHR.iterate t).Sorted (· < ·) ∧
      ∀ addr, addr ∈ G1EvacuationFailureObjsInHR.iterate t ↔
        addr ∈ ([112, 105, 105] : List Nat) := by
  rcases hrec : G1EvacuationFailureObjsInHR.recordAll
      (G1EvacuationFailureObjsInHR.mkTracker 7 100 10 1) [112, 105, 105] with _ | t
  · exact absurd hrec (by decide)
  · exact ⟨t, rfl, C1_iterate_sorted_exactly_once 7 100 10 1 [112, 105, 105] t
      (by norm_num) (by decide) (by decide) (by norm_num) hrec⟩

end G1Evac
